import Mathlib

/-!
Verification development for the Compare-tool matching engine (src/app.js).

The engine's core is shallowly embedded below: strings are `List Char`,
JavaScript `Set` objects are duplicate-free `List`s in insertion order
(`setAdd` inserts only when absent, exactly the observable behaviour of
`Set.add`), and the numeric score is an exact rational with JavaScript's
`Math.round` modelled as `⌊q + 1/2⌋`.  Each definition mirrors one function
of the source file; the theorems at the end settle the specification claims.
-/

/-- Strings of the engine are modelled as lists of characters. -/
abbrev Str := List Char

/-- Characters kept verbatim by the regex `[^a-z0-9]+` of `normalizeToken`:
lowercase ASCII letters and digits. -/
def isLowerAlnum (c : Char) : Bool :=
  (97 ≤ c.toNat && c.toNat ≤ 122) || (48 ≤ c.toNat && c.toNat ≤ 57)

/-- JavaScript `String.prototype.trim`: drop whitespace from both ends. -/
def jsTrim (l : Str) : Str :=
  ((l.dropWhile Char.isWhitespace).reverse.dropWhile Char.isWhitespace).reverse

/-- One pass of `.replace(/[^a-z0-9]+/g, "_")`: every maximal run of
characters outside `[a-z0-9]` becomes a single underscore.  The boolean flag
records whether the previous character already emitted an underscore. -/
def collapseAux : Bool → Str → Str
  | _, [] => []
  | prevUnderscore, c :: cs =>
    if isLowerAlnum c then c :: collapseAux false cs
    else if prevUnderscore then collapseAux true cs
    else '_' :: collapseAux true cs

/-- `.replace(/[^a-z0-9]+/g, "_")` on a whole string. -/
def collapseNonAlnum (l : Str) : Str := collapseAux false l

/-- `.replace(/^_+|_+$/g, "")`: strip leading and trailing underscores. -/
def stripEdgeUnderscores (l : Str) : Str :=
  ((l.dropWhile (· == '_')).reverse.dropWhile (· == '_')).reverse

/-- `normalizeToken` (src/app.js lines 11-16): lowercase, trim, collapse
non-alphanumeric runs to `_`, strip edge underscores. -/
def normalizeToken (s : Str) : Str :=
  stripEdgeUnderscores (collapseNonAlnum (jsTrim (s.map Char.toLower)))

/-- `Set.add` on insertion-ordered duplicate-free lists. -/
def setAdd (s : List Str) (t : Str) : List Str :=
  if t ∈ s then s else s ++ [t]

/-- `tokens.forEach((token) => target.add(token))` (src/app.js line 182). -/
def addTokens (target : List Str) (toks : List Str) : List Str :=
  toks.foldl setAdd target

/-- Worker for `splitRuns`: `acc` holds the (reversed) run being read. -/
def splitRunsGo (p : Char → Bool) : Str → Str → List Str
  | [], acc => if acc.isEmpty then [] else [acc.reverse]
  | c :: cs, acc =>
    if p c then
      if acc.isEmpty then splitRunsGo p cs [] else acc.reverse :: splitRunsGo p cs []
    else splitRunsGo p cs (c :: acc)

/-- Split into the maximal runs of characters not satisfying `p`; empty parts
are dropped, matching JavaScript `split(regex).filter(Boolean)` and
`split(regex)` followed by trim-and-filter. -/
def splitRuns (p : Char → Bool) (l : Str) : List Str := splitRunsGo p l []

/-- JavaScript `String.prototype.split(sep)` with a single-character
separator, keeping empty parts. -/
def splitOnCharKeep (sep : Char) : Str → List Str
  | [] => [[]]
  | c :: cs =>
    if c == sep then [] :: splitOnCharKeep sep cs
    else
      match splitOnCharKeep sep cs with
      | [] => [[c]]
      | r :: rs => (c :: r) :: rs

/-- Substring test, used for the `/_(and|with|plus)_/` regex. -/
def containsSeq : Str → Str → Bool
  | pat, [] => pat.isEmpty
  | pat, c :: tail => pat.isPrefixOf (c :: tail) || containsSeq pat tail

/-- JavaScript `slice(0, -k)`: drop the last `k` characters. -/
def sliceDropEnd (k : ℕ) (l : Str) : Str := l.take (l.length - k)

/-- `simplePluralVariants` (src/app.js lines 19-30).  Each suffix rule that
matches adds its transform to the variant set; note that the `oes` rule uses
`slice(0, -2)`, i.e. it drops only the final `es`. -/
def simplePluralVariants (tok : Str) : List Str :=
  let t := normalizeToken tok
  let v0 : List Str := [t]
  let v1 := if ("ies".toList).isSuffixOf t then setAdd v0 (sliceDropEnd 3 t ++ ['y']) else v0
  let v2 := if ("oes".toList).isSuffixOf t then setAdd v1 (sliceDropEnd 2 t) else v1
  let v3 := if ("es".toList).isSuffixOf t then setAdd v2 (sliceDropEnd 2 t) else v2
  if ("s".toList).isSuffixOf t then setAdd v3 (sliceDropEnd 1 t) else v3

/-- The `SYNONYMS` table (src/app.js lines 32-49) as an association list in
source order. -/
def SYNONYMS : List (Str × List Str) :=
  [ ("grainfree".toList, ["grain_free".toList, "no_grain".toList, "no_grains".toList]),
    ("grain-free".toList, ["grain_free".toList, "no_grain".toList, "no_grains".toList]),
    ("grain_free".toList, ["grain_free".toList, "no_grain".toList, "no_grains".toList, "grainfree".toList]),
    ("no_grain".toList, ["grain_free".toList, "no_grains".toList, "grainfree".toList]),
    ("no_grains".toList, ["grain_free".toList, "no_grain".toList, "grainfree".toList]),
    ("without_grain".toList, ["grain_free".toList, "no_grain".toList, "no_grains".toList, "grainfree".toList]),
    ("without_grains".toList, ["grain_free".toList, "no_grain".toList, "no_grains".toList, "grainfree".toList]),
    ("with_grain".toList, ["contains_grain".toList, "grain".toList, "grains".toList, "with_grains".toList]),
    ("with_grains".toList, ["contains_grain".toList, "grain".toList, "grains".toList, "with_grain".toList]),
    ("grains".toList, ["contains_grain".toList, "grain".toList]),
    ("grain".toList, ["contains_grain".toList, "grains".toList, "with_grains".toList, "with_grain".toList]),
    ("contains_grain".toList, ["contains_grain".toList]),
    ("protein".toList, ["has_protein".toList, "protein".toList]),
    ("no_protein".toList, ["no_protein".toList]),
    ("taste".toList, ["taste".toList, "taste_of_the_wild".toList, "totw".toList]),
    ("totw".toList, ["taste_of_the_wild".toList]) ]

/-- `SYNONYMS[base] || []`. -/
def synLookup (t : Str) : List Str :=
  ((SYNONYMS.find? (fun kv => kv.1 == t)).map Prod.snd).getD []

/-- `GRAIN_WITH_TOKENS` (src/app.js lines 51-57). -/
def GRAIN_WITH_TOKENS : List Str :=
  ["contains_grain".toList, "grain".toList, "grains".toList, "with_grain".toList, "with_grains".toList]

/-- `GRAIN_FREE_TOKENS` (src/app.js lines 59-66). -/
def GRAIN_FREE_TOKENS : List Str :=
  ["grain_free".toList, "grainfree".toList, "no_grain".toList, "no_grains".toList,
   "without_grain".toList, "without_grains".toList]

/-- `expandSynonyms` (src/app.js lines 68-74). -/
def expandSynonyms (tok : Str) : List Str :=
  let base := normalizeToken tok
  let variants := setAdd [] base
  let variants := addTokens variants (synLookup base)
  addTokens variants (simplePluralVariants base)

/-- `PHRASE_SYNONYM_OVERRIDES` (src/app.js lines 76-84). -/
def PHRASE_SYNONYM_OVERRIDES : List Str :=
  ["grain_free".toList, "no_grain".toList, "no_grains".toList, "with_grain".toList,
   "with_grains".toList, "without_grain".toList, "without_grains".toList]

/-- The record returned by `parseQuery`. -/
structure ParseResult where
  includeGroups : List (List Str)
  excludes : List Str
  labelIncludes : List Str
  labelExcludes : List Str
deriving DecidableEq, Repr

/-- `emptyParseResult` (src/app.js lines 87-92). -/
def emptyParseResult : ParseResult :=
  { includeGroups := [], excludes := [], labelIncludes := [], labelExcludes := [] }

/-- One iteration of the `parseQuery` loop body (src/app.js lines 106-162)
on the current term `raw` with lookahead `nextRaw?`.  Returns the updated
accumulators and whether the lookahead term was consumed (`skipNext`). -/
def parseStep (raw : Str) (nextRawOpt : Option Str) (state : ParseResult) :
    ParseResult × Bool :=
  if raw.isEmpty then (state, false)
  else
    let isExclude := raw.head? == some '-'
    let baseRaw := if isExclude then raw.drop 1 else raw
    let base := normalizeToken baseRaw
    if base.isEmpty then (state, false)
    else
      let phraseToken : Str :=
        match nextRawOpt with
        | none => []
        | some nextRaw =>
          if nextRaw.head? == some '-' then []
          else
            let next := normalizeToken nextRaw
            if next.isEmpty then [] else normalizeToken (base ++ '_' :: next)
      let skipNext := !phraseToken.isEmpty && PHRASE_SYNONYM_OVERRIDES.contains phraseToken
      let labelToken := if skipNext then phraseToken else base
      let group :=
        if skipNext then addTokens [] (expandSynonyms phraseToken)
        else
          let g := addTokens [] (expandSynonyms base)
          if phraseToken.isEmpty then g
          else addTokens g (phraseToken :: simplePluralVariants phraseToken)
      if group.isEmpty then (state, skipNext)
      else
        let state :=
          if isExclude then
            { state with
                excludes := addTokens state.excludes group,
                labelExcludes :=
                  if labelToken.isEmpty then state.labelExcludes
                  else setAdd state.labelExcludes labelToken }
          else
            { state with
                includeGroups := state.includeGroups ++ [group],
                labelIncludes :=
                  if labelToken.isEmpty then state.labelIncludes
                  else setAdd state.labelIncludes labelToken }
        (state, skipNext)

/-- The cursor loop of `parseQuery`: the index advances by 2 when a phrase
override consumed the lookahead term, else by 1. -/
def parseLoop : List Str → ParseResult → ParseResult
  | [], state => state
  | [raw], state => (parseStep raw none state).1
  | raw :: nextRaw :: rest, state =>
    let out := parseStep raw (some nextRaw) state
    if out.2 then parseLoop rest out.1 else parseLoop (nextRaw :: rest) out.1

/-- `parseQuery` (src/app.js lines 94-165). -/
def parseQuery (q : Str) : ParseResult :=
  let parts := splitRuns Char.isWhitespace (jsTrim q)
  if parts.isEmpty then emptyParseResult else parseLoop parts emptyParseResult

/-- A `ProductRecord`.  `contains_grain` is tri-state (`some true` /
`some false` / `none` for unknown). -/
structure Product where
  id : Str
  name : Str
  brand : Str
  contains_grain : Option Bool
  protein_sources : List Str
  ingredients_list : Str
deriving DecidableEq, Repr

/-- `explodeSlug` (src/app.js lines 168-173): a slug contributes its full
normalized form and, when it contains an underscore at a positive index, its
root before the first underscore. -/
def explodeSlug (slug : Str) : List Str :=
  let normalized := normalizeToken slug
  if normalized.isEmpty then []
  else
    match normalized.findIdx? (· == '_') with
    | some idx => if 0 < idx then [normalized, normalized.take idx] else [normalized]
    | none => [normalized]

/-- `tokensFromString` (src/app.js lines 175-179): split on whitespace,
slash, underscore, hyphen; normalize; drop empties. -/
def tokensFromString (value : Str) : List Str :=
  ((splitRuns (fun c => c.isWhitespace || c == '/' || c == '_' || c == '-') value).map
      normalizeToken).filter (fun t => !t.isEmpty)

/-- The semicolon split of `ingredients_list` with trimming and dropping of
empty items (src/app.js lines 190-193). -/
def splitIngredientsList (l : Str) : List Str :=
  ((splitRuns (· == ';') l).map jsTrim).filter (fun s => !s.isEmpty)

/-- The grain status tokens added by `productTokenSet` (src/app.js 198-203). -/
def grainStatusTokens : Option Bool → List Str
  | some true => ["contains_grain".toList, "grain".toList, "grains".toList, "with_grains".toList]
  | some false => ["grain_free".toList, "no_grain".toList, "no_grains".toList, "grainfree".toList]
  | none => []

/-- `productTokenSet` (src/app.js lines 184-209). -/
def productTokenSet (p : Product) : List Str :=
  let tokens : List Str := []
  let tokens := addTokens tokens (tokensFromString p.id)
  let tokens := addTokens tokens (tokensFromString p.name)
  let tokens := addTokens tokens (tokensFromString p.brand)
  let tokens := (splitIngredientsList p.ingredients_list).foldl
    (fun acc ingredient => addTokens acc (explodeSlug ingredient)) tokens
  let tokens := p.protein_sources.foldl
    (fun acc source => addTokens acc (explodeSlug source)) tokens
  let tokens := addTokens tokens (grainStatusTokens p.contains_grain)
  addTokens tokens
    (if p.protein_sources.length ≠ 0 then ["has_protein".toList, "protein".toList]
     else ["no_protein".toList])

/-- `hasToken` (src/app.js lines 212-218): membership, or any member that
equals the token, starts with `token + "_"`, or starts with the token as a
plain prefix. -/
def hasToken (tokenSet : List Str) (token : Str) : Bool :=
  tokenSet.contains token ||
    tokenSet.any (fun value =>
      value == token || (token ++ ['_']).isPrefixOf value || token.isPrefixOf value)

/-- `hasTokenExclude` (src/app.js lines 221-230): for `grain`/`grains` only
exact membership of the fixed grain-present tokens counts; otherwise exact
match or a member starting with `token + "_"`. -/
def hasTokenExclude (tokenSet : List Str) (tok : Str) : Bool :=
  let token := normalizeToken tok
  if token == "grain".toList || token == "grains".toList then
    (["contains_grain".toList, "grain".toList, "grains".toList, "with_grains".toList] :
        List Str).any (fun value => tokenSet.contains value)
  else
    tokenSet.any (fun value => value == token || (token ++ ['_']).isPrefixOf value)

/-- `PROTEIN_DESCRIPTOR_PREFIXES` (src/app.js lines 232-248). -/
def PROTEIN_DESCRIPTORS : List Str :=
  ["deboned_".toList, "roasted_".toList, "smoke_flavored_".toList, "freeze_dried_".toList,
   "air_dried_".toList, "oven_baked_".toList, "wild_caught_".toList, "farm_raised_".toList,
   "free_range_".toList, "cage_free_".toList, "real_".toList, "fresh_".toList,
   "raw_".toList, "ground_".toList, "dried_".toList]

/-- `PROTEIN_SUFFIX_FORMS` (src/app.js lines 250-271). -/
def PROTEIN_SUFFIX_FORMS : List (Str × Str) :=
  [ ("_meal".toList, "meal".toList), ("_meals".toList, "meal".toList),
    ("_fat".toList, "fat".toList), ("_oil".toList, "fat".toList),
    ("_tallow".toList, "fat".toList), ("_grease".toList, "fat".toList),
    ("_product".toList, "other".toList), ("_products".toList, "other".toList),
    ("_liver".toList, "other".toList), ("_heart".toList, "other".toList),
    ("_kidney".toList, "other".toList), ("_lung".toList, "other".toList),
    ("_tripe".toList, "other".toList), ("_giblets".toList, "other".toList),
    ("_plasma".toList, "other".toList), ("_egg".toList, "other".toList),
    ("_eggs".toList, "other".toList), ("_whites".toList, "other".toList),
    ("_breast".toList, "other".toList), ("_and_bone".toList, "other".toList) ]

/-- The `stripProteinPrefix` while-loop (src/app.js lines 273-287), with a
fuel argument bounding the iterations: every descriptor is non-empty, so at
most `length` strips can ever happen and the fuel never runs out before the
loop's fixpoint. -/
def stripDescriptorsAux : ℕ → Str → Str
  | 0, value => value
  | fuel + 1, value =>
    match PROTEIN_DESCRIPTORS.find? (fun d => d.isPrefixOf value) with
    | some d => stripDescriptorsAux fuel (value.drop d.length)
    | none => value

/-- `stripProteinPrefix` of the source. -/
def stripProteinDescriptors (name : Str) : Str := stripDescriptorsAux name.length name

/-- One parsed protein source string. -/
structure ProteinParse where
  base : Str
  form : Str
  mixed : Bool
deriving DecidableEq, Repr

/-- `parseProteinSource` (src/app.js lines 289-311). -/
def parseProteinSource (raw : Str) : Option ProteinParse :=
  let norm0 := normalizeToken raw
  if norm0.isEmpty then none
  else
    let norm1 := stripProteinDescriptors norm0
    let stripped :=
      match PROTEIN_SUFFIX_FORMS.find? (fun sf => sf.1.isSuffixOf norm1) with
      | some sf => (sliceDropEnd sf.1.length norm1, sf.2)
      | none => (norm1, "pure".toList)
    let base := if stripped.1.isEmpty then normalizeToken raw else stripped.1
    some { base := base, form := stripped.2,
           mixed := containsSeq ("_and_".toList) base || containsSeq ("_with_".toList) base ||
             containsSeq ("_plus_".toList) base }

/-- The `byBase` map of `evaluateProteinPurity`: an insertion-ordered
association list from base to (forms set, count). -/
def bumpBase : List (Str × (List Str × ℕ)) → ProteinParse → List (Str × (List Str × ℕ))
  | [], item => [(item.base, ([item.form], 1))]
  | (b, (forms, count)) :: rest, item =>
    if b == item.base then (b, (setAdd forms item.form, count + 1)) :: rest
    else (b, (forms, count)) :: bumpBase rest item

/-- Stable insertion (descending by count) for the entry sort of
`evaluateProteinPurity`; ties keep map insertion order, like the stable
JavaScript `Array.prototype.sort`. -/
def insertCountDesc (x : Str × (List Str × ℕ)) :
    List (Str × (List Str × ℕ)) → List (Str × (List Str × ℕ))
  | [] => [x]
  | y :: ys => if y.2.2 < x.2.2 then x :: y :: ys else y :: insertCountDesc x ys

/-- `entries.sort((a, b) => b[1].count - a[1].count)`, stably. -/
def sortCountDesc : List (Str × (List Str × ℕ)) → List (Str × (List Str × ℕ))
  | [] => []
  | x :: xs => insertCountDesc x (sortCountDesc xs)

/-- The `{percent, tier}` record of `evaluateProteinPurity`. -/
structure PurityResult where
  percent : ℕ
  tier : Str
deriving DecidableEq, Repr

/-- `evaluateProteinPurity` (src/app.js lines 313-345). -/
def evaluateProteinPurity (proteinSources : List Str) : PurityResult :=
  let parsed := proteinSources.filterMap parseProteinSource
  if parsed.isEmpty then { percent := 0, tier := "none".toList }
  else
    let byBase := parsed.foldl bumpBase []
    match sortCountDesc byBase with
    | [] => { percent := 0, tier := "none".toList }
    | primary :: otherBases =>
      let primaryForms := primary.2.1
      let otherBaseHasNonFat :=
        otherBases.any (fun e => e.2.1.any (fun f => !(f == "fat".toList)))
      let otherBaseExists := !otherBases.isEmpty
      let primaryOnlyPure :=
        primaryForms.length == 1 && primaryForms.contains ("pure".toList)
      let primaryOnlyPureOrMeal :=
        primaryForms.all (fun f => f == "pure".toList || f == "meal".toList)
      let primaryHasFat := primaryForms.contains ("fat".toList)
      let primaryHasOther := primaryForms.any (fun f => f == "other".toList)
      let anyMixed := parsed.any (fun item => item.mixed)
      if anyMixed || otherBaseHasNonFat then { percent := 75, tier := "mixed".toList }
      else if !otherBaseExists && primaryOnlyPure then { percent := 100, tier := "pure".toList }
      else if !otherBaseExists && primaryOnlyPureOrMeal && !primaryHasFat && !primaryHasOther then
        { percent := 93, tier := "meal".toList }
      else if (!otherBaseExists && (primaryHasFat || primaryHasOther)) ||
          (otherBaseExists && !otherBaseHasNonFat) then
        { percent := 85, tier := "fat".toList }
      else { percent := 75, tier := "mixed".toList }

/-- `ingredientTokens` (src/app.js lines 347-365): the flat normalized list
of ingredient items followed by protein sources, duplicates kept. -/
def ingredientTokens (p : Product) : List Str :=
  (((splitRuns (fun c => c == ';' || c == ',' || c == '\n') p.ingredients_list).map jsTrim).map
        normalizeToken).filter (fun t => !t.isEmpty) ++
    (p.protein_sources.map normalizeToken).filter (fun t => !t.isEmpty)

/-- `orderedIngredientTokens` (src/app.js lines 367-385): same contents as
`ingredientTokens`, position-preserving. -/
def orderedIngredientTokens (p : Product) : List Str :=
  (((splitRuns (fun c => c == ';' || c == ',' || c == '\n') p.ingredients_list).map jsTrim).map
        normalizeToken).filter (fun t => !t.isEmpty) ++
    (p.protein_sources.map normalizeToken).filter (fun t => !t.isEmpty)

/-- `ingredientTokenMatches` (src/app.js lines 387-397). -/
def ingredientTokenMatches (token ingredient : Str) : Bool :=
  if token.isEmpty || ingredient.isEmpty then false
  else if ingredient == token then true
  else if (token ++ ['_']).isPrefixOf ingredient then true
  else if (ingredient ++ ['_']).isPrefixOf token then true
  else if !token.contains '_' then (splitOnCharKeep '_' ingredient).contains token
  else false

/-- Exact rational addition (the engine's scores are ordinary JavaScript
number arithmetic, modelled exactly; these four operations are the field
operations of `ℚ`, written out on numerator and denominator so that concrete
runs reduce inside the kernel). -/
def ratAdd (a b : ℚ) : ℚ := mkRat (a.num * b.den + b.num * a.den) (a.den * b.den)

/-- Exact rational subtraction. -/
def ratSub (a b : ℚ) : ℚ := mkRat (a.num * b.den - b.num * a.den) (a.den * b.den)

/-- Exact rational multiplication. -/
def ratMul (a b : ℚ) : ℚ := mkRat (a.num * b.num) (a.den * b.den)

/-- Exact rational division. -/
def ratDiv (a b : ℚ) : ℚ := Rat.divInt (a.num * b.den) (b.num * a.den)

/-- The `{ingredientMatched, ingredientScore, ingredientIndex}` triple of
`evaluateIngredientGroupScore`. -/
structure IngredientScore where
  ingredientMatched : Bool
  ingredientScore : ℚ
  ingredientIndex : Option ℕ
deriving DecidableEq, Repr

/-- `evaluateIngredientGroupScore` (src/app.js lines 399-421): the scan with
`bestIndex` finds the first index whose ingredient matches any group token. -/
def evaluateIngredientGroupScore (tokens orderedIngredients : List Str) : IngredientScore :=
  if orderedIngredients.isEmpty then
    { ingredientMatched := false, ingredientScore := 0, ingredientIndex := none }
  else
    match orderedIngredients.findIdx?
        (fun ingredient => tokens.any (fun t => ingredientTokenMatches t ingredient)) with
    | none => { ingredientMatched := false, ingredientScore := 0, ingredientIndex := none }
    | some i =>
      { ingredientMatched := true,
        ingredientScore := ratSub 1 (ratDiv (i : ℚ) (orderedIngredients.length : ℚ)),
        ingredientIndex := some i }

/-- `countTokenMatches` (src/app.js lines 423-432). -/
def countTokenMatches (tokenList : List Str) (rawToken : Str) : ℕ :=
  let token := normalizeToken rawToken
  if token.isEmpty then 0
  else
    tokenList.foldl
      (fun total value =>
        if value == token then total + 1
        else if !token.contains '_' && (splitOnCharKeep '_' value).contains token then total + 1
        else total) 0

/-- One element of `groupEvaluations` in `computeMatch`. -/
structure GroupEval where
  matched : Bool
  requirement : Option Str
  ingredientMatched : Bool
  ingredientScore : ℚ
  ingredientIndex : Option ℕ
deriving DecidableEq, Repr

/-- The per-group evaluation of `computeMatch` (src/app.js lines 446-456). -/
def evalGroup (tokens orderedIngredients : List Str) (group : List Str) : GroupEval :=
  let normalizedGroupTokens := (group.map normalizeToken).filter (fun t => !t.isEmpty)
  let requirement :=
    if normalizedGroupTokens.any (fun t => GRAIN_WITH_TOKENS.contains t) then
      some ("with".toList)
    else if normalizedGroupTokens.any (fun t => GRAIN_FREE_TOKENS.contains t) then
      some ("without".toList)
    else none
  let matched := normalizedGroupTokens.any (fun t => hasToken tokens t)
  let ing := evaluateIngredientGroupScore normalizedGroupTokens orderedIngredients
  { matched := matched, requirement := requirement,
    ingredientMatched := ing.ingredientMatched,
    ingredientScore := ing.ingredientScore,
    ingredientIndex := ing.ingredientIndex }

/-- The `MatchResult` record.  `match` and `show` are reserved words in Lean,
so those two fields are called `matchPercent` and `showProduct`. -/
structure MatchResult where
  matchPercent : ℤ
  sortScore : ℤ
  matchedGroups : ℕ
  neededGroups : ℕ
  showProduct : Bool
deriving DecidableEq, Repr

/-- JavaScript `Math.round` on the exact rational values arising here:
`Math.round(x)` is the floor of `x + 1/2`. -/
def jsRound (q : ℚ) : ℤ := Rat.floor (ratAdd q (mkRat 1 2))

/-- The body of `computeMatch` (src/app.js lines 434-499) over the three
token views computed from the product in its first lines. -/
def computeMatchCore (tokens frequencyTokens orderedIngredients : List Str)
    (includeGroups : List (List Str)) (excludes : List Str) : MatchResult :=
  if excludes.any (fun ex => hasTokenExclude tokens ex) then
    { matchPercent := 0, sortScore := 0, matchedGroups := 0,
      neededGroups := includeGroups.length, showProduct := false }
  else
    let neededGroups := includeGroups.length
    let groupEvaluations := includeGroups.map (evalGroup tokens orderedIngredients)
    let matchedGroups := (groupEvaluations.filter (fun g => g.matched)).length
    if 0 < neededGroups && matchedGroups == 0 then
      { matchPercent := 0, sortScore := 0, matchedGroups := matchedGroups,
        neededGroups := neededGroups, showProduct := false }
    else
      let requiresGrain := groupEvaluations.any (fun g => g.requirement == some ("with".toList))
      let requiresGrainFree :=
        groupEvaluations.any (fun g => g.requirement == some ("without".toList))
      if (requiresGrain &&
            !(groupEvaluations.any (fun g =>
              g.requirement == some ("with".toList) && g.matched))) ||
          (requiresGrainFree &&
            !(groupEvaluations.any (fun g =>
              g.requirement == some ("without".toList) && g.matched))) then
        { matchPercent := 0, sortScore := 0, matchedGroups := matchedGroups,
          neededGroups := neededGroups, showProduct := false }
      else
        let totalScore : ℚ := groupEvaluations.foldl
          (fun score g =>
            if !g.matched then score
            else if g.ingredientMatched then ratAdd score g.ingredientScore
            else ratAdd score 1) 0
        let matchPercent : ℤ :=
          if neededGroups == 0 then 0
          else jsRound (ratMul (ratDiv totalScore (neededGroups : ℚ)) 100)
        let frequencyScore : ℕ := includeGroups.foldl
          (fun score group =>
            score + group.foldl
              (fun groupCount token => max groupCount (countTokenMatches frequencyTokens token)) 0)
          0
        let ingredientRankBoost : ℕ :=
          (groupEvaluations.filter (fun g => g.ingredientMatched)).foldl
            (fun boost g =>
              match g.ingredientIndex with
              | none => boost
              | some i => boost + (orderedIngredients.length - i)) 0
        let sortScore : ℤ :=
          matchPercent * 1000 + (ingredientRankBoost : ℤ) * 10 + (frequencyScore : ℤ)
        { matchPercent := matchPercent, sortScore := sortScore,
          matchedGroups := matchedGroups, neededGroups := neededGroups, showProduct := true }

/-- `computeMatch` (src/app.js lines 434-499). -/
def computeMatch (p : Product) (includeGroups : List (List Str)) (excludes : List Str) :
    MatchResult :=
  computeMatchCore (productTokenSet p) (ingredientTokens p) (orderedIngredientTokens p)
    includeGroups excludes

/-- The end-to-end product of the specification's test catalog. -/
def sampleProduct : Product :=
  { id := "p1".toList, name := "Chicken Recipe".toList, brand := "Acme".toList,
    contains_grain := some false, protein_sources := ["chicken".toList],
    ingredients_list := "chicken;peas;chicken_meal".toList }

/-- A grain-free product whose *name* contains the word "grain": its token
set then holds the bare token `grain` from name tokenization. -/
def grainNamedProduct : Product :=
  { id := "p2".toList, name := "Grain Free Chicken".toList, brand := "Acme".toList,
    contains_grain := some false, protein_sources := ["chicken".toList],
    ingredients_list := "chicken".toList }

/-! ## Helper lemmas -/

/-- Membership in a `setAdd` insertion. -/
theorem mem_setAdd {s : List Str} {t x : Str} : x ∈ setAdd s t ↔ x ∈ s ∨ x = t := by
  unfold setAdd
  split
  · constructor
    · exact Or.inl
    · rintro (hx | rfl)
      · exact hx
      · assumption
  · simp [List.mem_append]

/-- Membership in an `addTokens` bulk insertion. -/
theorem mem_addTokens {x : Str} :
    ∀ (toks target : List Str), x ∈ addTokens target toks ↔ x ∈ target ∨ x ∈ toks := by
  intro toks
  induction toks with
  | nil => intro target; simp [addTokens]
  | cons t ts ih =>
    intro target
    have h1 : addTokens target (t :: ts) = addTokens (setAdd target t) ts := rfl
    rw [h1, ih, mem_setAdd]
    simp [List.mem_cons]
    tauto

/-- A product with `contains_grain = false` always carries the status token
`grain_free` in its token set. -/
theorem grain_free_mem_productTokenSet (p : Product) (h : p.contains_grain = some false) :
    ("grain_free".toList) ∈ productTokenSet p := by
  unfold productTokenSet
  rw [mem_addTokens]
  left
  rw [mem_addTokens]
  right
  rw [h]
  decide

/-- Pointwise-false exclusion checks make the `any` of the exclude loop false. -/
theorem excl_any_false {ts : List Str} {excludes : List Str}
    (h : ∀ ex ∈ excludes, hasTokenExclude ts ex = false) :
    (excludes.any (fun ex => hasTokenExclude ts ex)) = false := by
  rw [List.any_eq_false]
  intro ex hm
  simp [h ex hm]

/-- `hasToken` is monotone in the token set. -/
theorem hasToken_mono {ts ts2 : List Str} (hsub : ∀ t ∈ ts, t ∈ ts2) (tok : Str)
    (h : hasToken ts tok = true) : hasToken ts2 tok = true := by
  unfold hasToken at h ⊢
  simp only [Bool.or_eq_true, List.any_eq_true, List.contains_iff_exists_mem_beq] at h ⊢
  rcases h with ⟨x, hx, hbeq⟩ | ⟨x, hx, hp⟩
  · exact Or.inl ⟨x, hsub x hx, hbeq⟩
  · exact Or.inr ⟨x, hsub x hx, hp⟩

/-- Group matching is monotone in the token set. -/
theorem evalGroup_matched_mono {ts ts2 ord : List Str} (hsub : ∀ t ∈ ts, t ∈ ts2)
    (g : List Str) (h : (evalGroup ts ord g).matched = true) :
    (evalGroup ts2 ord g).matched = true := by
  unfold evalGroup at h ⊢
  simp only [List.any_eq_true] at h ⊢
  obtain ⟨t, ht, htok⟩ := h
  exact ⟨t, ht, hasToken_mono hsub t htok⟩

/-- The count of matched groups is monotone in the token set. -/
theorem matchedCount_mono {ts ts2 ord : List Str} (hsub : ∀ t ∈ ts, t ∈ ts2) :
    ∀ groups : List (List Str),
      ((groups.map (evalGroup ts ord)).filter (fun g => g.matched)).length ≤
        ((groups.map (evalGroup ts2 ord)).filter (fun g => g.matched)).length := by
  intro groups
  induction groups with
  | nil => simp
  | cons g gs ih =>
    simp only [List.map_cons, List.filter_cons]
    by_cases h : (evalGroup ts ord g).matched = true
    · rw [if_pos (by simpa using h), if_pos (by simpa using evalGroup_matched_mono hsub g h)]
      simpa using ih
    · rw [if_neg (by simpa using h)]
      by_cases h2 : (evalGroup ts2 ord g).matched = true
      · rw [if_pos (by simpa using h2)]
        exact ih.trans (by simp)
      · rw [if_neg (by simpa using h2)]
        exact ih

/-- When no exclude fires, the `matchedGroups` field of `computeMatchCore` is
the number of matched include groups, in every branch. -/
theorem matchedGroups_eq {ts freq ord : List Str} {groups : List (List Str)}
    {excludes : List Str}
    (hex : (excludes.any (fun ex => hasTokenExclude ts ex)) = false) :
    (computeMatchCore ts freq ord groups excludes).matchedGroups =
      ((groups.map (evalGroup ts ord)).filter (fun g => g.matched)).length := by
  unfold computeMatchCore
  rw [hex]
  simp only [Bool.false_eq_true, if_false]
  split
  · rfl
  · split
    · rfl
    · rfl

/-- The include group produced by `parseQuery` for the unigram `grain`. -/
def grainGroup : List Str :=
  ["grain".toList, "contains_grain".toList, "grains".toList, "with_grains".toList,
   "with_grain".toList]

/-- `hasTokenExclude` on the tokens `grain`/`grains` checks only exact
membership of the four grain-present tokens. -/
theorem hasTokenExclude_grain_special (p : Product)
    (hclean : ∀ t ∈ (["contains_grain".toList, "grain".toList, "grains".toList,
      "with_grains".toList] : List Str), t ∉ productTokenSet p)
    (tok : Str)
    (htok : normalizeToken tok = "grain".toList ∨ normalizeToken tok = "grains".toList) :
    hasTokenExclude (productTokenSet p) tok = false := by
  unfold hasTokenExclude
  have hcond : (normalizeToken tok == "grain".toList ||
      normalizeToken tok == "grains".toList) = true := by
    rcases htok with h | h <;> rw [h] <;> decide
  rw [if_pos hcond]
  rw [List.any_eq_false]
  intro v hv
  have hni : v ∉ productTokenSet p := hclean v hv
  simp only [Bool.not_eq_true]
  cases hcv : (productTokenSet p).contains v with
  | false => rfl
  | true =>
    obtain ⟨x, hx, hbeq⟩ := List.contains_iff_exists_mem_beq.mp hcv
    exact absurd (eq_of_beq hbeq ▸ hx) hni

/-- Adjacent characters are never both underscores. -/
def UnderscoreApart (a b : Char) : Prop := ¬(a = '_' ∧ b = '_')

/-- The canonical shape of a normalized token: only lowercase ASCII letters,
digits and underscores; no two adjacent underscores; and no leading or
trailing underscore. -/
def Canonical (t : Str) : Prop :=
  (∀ c ∈ t, isLowerAlnum c = true ∨ c = '_') ∧
  t.Chain' UnderscoreApart ∧
  (∀ c, t.head? = some c → c ≠ '_') ∧
  (∀ c, t.getLast? = some c → c ≠ '_')

/-- Every character emitted by the collapse pass is alphanumeric or `_`. -/
theorem collapseAux_chars : ∀ (l : Str) (b : Bool) (c : Char),
    c ∈ collapseAux b l → isLowerAlnum c = true ∨ c = '_' := by
  intro l
  induction l with
  | nil => intro b c hc; simp [collapseAux] at hc
  | cons d ds ih =>
    intro b c hc
    unfold collapseAux at hc
    by_cases hd : isLowerAlnum d = true
    · rw [if_pos hd] at hc
      rcases List.mem_cons.mp hc with rfl | hm
      · exact Or.inl hd
      · exact ih false c hm
    · rw [if_neg hd] at hc
      cases b with
      | true => exact ih true c hc
      | false =>
        simp only [if_false, Bool.false_eq_true] at hc
        rcases List.mem_cons.mp hc with rfl | hm
        · exact Or.inr rfl
        · exact ih true c hm

/-- With the underscore flag set, the collapse pass starts with an
alphanumeric character if it emits anything. -/
theorem collapseAux_true_head : ∀ (l : Str) (c : Char),
    (collapseAux true l).head? = some c → isLowerAlnum c = true := by
  intro l
  induction l with
  | nil => intro c hc; simp [collapseAux] at hc
  | cons d ds ih =>
    intro c hc
    unfold collapseAux at hc
    by_cases hd : isLowerAlnum d = true
    · rw [if_pos hd] at hc
      simp only [List.head?_cons, Option.some.injEq] at hc
      exact hc ▸ hd
    · rw [if_neg hd, if_pos rfl] at hc
      exact ih c hc

/-- The collapse pass never emits two adjacent underscores. -/
theorem collapseAux_chain : ∀ (l : Str) (b : Bool),
    (collapseAux b l).Chain' UnderscoreApart := by
  intro l
  induction l with
  | nil => intro b; simp [collapseAux, List.chain'_nil]
  | cons d ds ih =>
    intro b
    unfold collapseAux
    by_cases hd : isLowerAlnum d = true
    · rw [if_pos hd]
      rw [List.chain'_cons']
      refine ⟨?_, ih false⟩
      intro y _
      intro hcon
      rw [hcon.1] at hd
      exact absurd hd (by decide)
    · rw [if_neg hd]
      cases b with
      | true => exact ih true
      | false =>
        simp only [if_false, Bool.false_eq_true]
        rw [List.chain'_cons']
        refine ⟨?_, ih true⟩
        intro y hy
        intro hcon
        have := collapseAux_true_head ds y hy
        rw [hcon.2] at this
        exact absurd this (by decide)

/-- The collapse pass fixes strings that are already collapsed. -/
theorem collapseAux_eq_self : ∀ l : Str,
    (∀ c ∈ l, isLowerAlnum c = true ∨ c = '_') →
    l.Chain' UnderscoreApart →
    collapseAux false l = l ∧
      ((∀ c, l.head? = some c → isLowerAlnum c = true) → collapseAux true l = l) := by
  intro l
  induction l with
  | nil => intro _ _; exact ⟨rfl, fun _ => rfl⟩
  | cons d ds ih =>
    intro hchars hchain
    have hchars2 : ∀ c ∈ ds, isLowerAlnum c = true ∨ c = '_' :=
      fun c hc => hchars c (List.mem_cons_of_mem d hc)
    have hchain2 : ds.Chain' UnderscoreApart := (List.chain'_cons'.mp hchain).2
    have ihds := ih hchars2 hchain2
    by_cases hd : isLowerAlnum d = true
    · constructor
      · unfold collapseAux
        rw [if_pos hd, ihds.1]
      · intro _
        unfold collapseAux
        rw [if_pos hd, ihds.1]
    · have hdu : d = '_' := by
        rcases hchars d (List.mem_cons_self d ds) with h | h
        · exact absurd h hd
        · exact h
      have hdshead : ∀ c, ds.head? = some c → isLowerAlnum c = true := by
        intro c hc
        have hr := (List.chain'_cons'.mp hchain).1 c hc
        rcases hchars2 c (by
          cases ds with
          | nil => simp at hc
          | cons e es =>
            simp only [List.head?_cons, Option.some.injEq] at hc
            exact hc ▸ List.mem_cons_self e es) with h | h
        · exact h
        · exact absurd ⟨hdu, h⟩ hr
      constructor
      · unfold collapseAux
        rw [if_neg hd]
        simp only [if_false, Bool.false_eq_true]
        rw [ihds.2 hdshead, hdu]
      · intro hh
        have := hh d (by simp)
        exact absurd this hd

/-- The head emitted by `dropWhile` fails the predicate. -/
theorem head_dropWhile_false {p : Char → Bool} :
    ∀ (l : Str) (c : Char), (l.dropWhile p).head? = some c → p c = false := by
  intro l
  induction l with
  | nil => intro c hc; simp at hc
  | cons a as ih =>
    intro c hc
    rw [List.dropWhile_cons] at hc
    by_cases ha : p a = true
    · rw [if_pos ha] at hc
      exact ih c hc
    · simp only [ha, if_false, Bool.false_eq_true, List.head?_cons, Option.some.injEq] at hc
      rw [← hc]
      exact Bool.not_eq_true _ |>.mp ha

/-- `dropWhile` keeps the last element when its result is non-empty. -/
theorem getLast?_dropWhile {p : Char → Bool} :
    ∀ l : Str, l.dropWhile p ≠ [] → (l.dropWhile p).getLast? = l.getLast? := by
  intro l
  induction l with
  | nil => intro hne; simp at hne
  | cons a as ih =>
    intro hne
    rw [List.dropWhile_cons] at hne ⊢
    by_cases ha : p a = true
    · rw [if_pos ha] at hne ⊢
      have hasne : as ≠ [] := by
        intro hnil
        rw [hnil] at hne
        simp at hne
      cases as with
      | nil => exact absurd rfl hasne
      | cons b bs => rw [ih hne, List.getLast?_cons_cons]
    · simp only [ha, if_false, Bool.false_eq_true]

/-- `dropWhile` is the identity when the head fails the predicate. -/
theorem dropWhile_eq_self_of_head {p : Char → Bool} (l : Str)
    (h : ∀ c, l.head? = some c → p c = false) : l.dropWhile p = l := by
  cases l with
  | nil => rfl
  | cons a as =>
    have := h a (by simp)
    rw [List.dropWhile_cons, this]
    simp

/-- `UnderscoreApart` chains survive reversal (the relation is symmetric). -/
theorem chain'_reverse_of_symm {l : Str} (h : l.Chain' UnderscoreApart) :
    l.reverse.Chain' UnderscoreApart := by
  rw [List.chain'_reverse]
  exact h.imp (fun a b hab => fun hcon => hab ⟨hcon.2, hcon.1⟩)

/-- The output of `normalizeToken` is always canonical. -/
theorem canonical_normalizeToken (s : Str) : Canonical (normalizeToken s) := by
  unfold normalizeToken stripEdgeUnderscores
  set m := collapseNonAlnum (jsTrim (s.map Char.toLower)) with hm
  have hchars : ∀ c ∈ m, isLowerAlnum c = true ∨ c = '_' :=
    fun c hc => collapseAux_chars _ false c hc
  have hchain : m.Chain' UnderscoreApart := collapseAux_chain _ false
  set Y := m.dropWhile (· == '_') with hY
  set X := Y.reverse.dropWhile (· == '_') with hX
  have hYm : ∀ c ∈ Y, c ∈ m := fun c hc => (List.dropWhile_sublist _).subset hc
  have hXY : ∀ c ∈ X, c ∈ Y := by
    intro c hc
    have := (List.dropWhile_sublist (l := Y.reverse) (· == '_')).subset hc
    exact List.mem_reverse.mp this
  refine ⟨?_, ?_, ?_, ?_⟩
  · intro c hc
    exact hchars c (hYm c (hXY c (List.mem_reverse.mp hc)))
  · have h1 : Y.Chain' UnderscoreApart := List.Chain'.suffix hchain (List.dropWhile_suffix _)
    have h2 : Y.reverse.Chain' UnderscoreApart := chain'_reverse_of_symm h1
    have h3 : X.Chain' UnderscoreApart := List.Chain'.suffix h2 (List.dropWhile_suffix _)
    exact chain'_reverse_of_symm h3
  · intro c hc
    rw [List.head?_reverse] at hc
    have hXne : X ≠ [] := by
      intro hnil
      rw [hnil] at hc
      simp at hc
    rw [hX, getLast?_dropWhile _ (hX ▸ hXne), List.getLast?_reverse] at hc
    have := head_dropWhile_false _ c hc
    simpa using this
  · intro c hc
    rw [List.getLast?_reverse] at hc
    have := head_dropWhile_false _ c hc
    simpa using this

/-- Lowercasing fixes canonical characters. -/
theorem toLower_fix {c : Char} (h : isLowerAlnum c = true ∨ c = '_') :
    Char.toLower c = c := by
  rcases h with h | rfl
  · unfold Char.toLower
    rw [if_neg]
    simp only [isLowerAlnum, Bool.or_eq_true, Bool.and_eq_true, decide_eq_true_eq] at h
    omega
  · decide

/-- Canonical characters are not whitespace. -/
theorem not_whitespace {c : Char} (h : isLowerAlnum c = true ∨ c = '_') :
    c.isWhitespace = false := by
  rcases h with h | rfl
  · simp only [isLowerAlnum, Bool.or_eq_true, Bool.and_eq_true, decide_eq_true_eq] at h
    simp only [Char.isWhitespace, Bool.or_eq_false_iff, decide_eq_false_iff_not]
    refine ⟨⟨⟨?_, ?_⟩, ?_⟩, ?_⟩ <;> rintro rfl <;> simp at h
  · decide

/-- `dropWhile` is the identity when every element fails the predicate. -/
theorem dropWhile_eq_self_of_all {p : Char → Bool} (l : Str)
    (h : ∀ c ∈ l, p c = false) : l.dropWhile p = l := by
  apply dropWhile_eq_self_of_head
  intro c hc
  cases l with
  | nil => simp at hc
  | cons a as =>
    simp only [List.head?_cons, Option.some.injEq] at hc
    exact hc ▸ h a (List.mem_cons_self a as)

/-- `normalizeToken` fixes canonical strings. -/
theorem normalizeToken_of_canonical (t : Str) (h : Canonical t) : normalizeToken t = t := by
  obtain ⟨hchars, hchain, hhead, hlast⟩ := h
  have hlower : t.map Char.toLower = t := by
    have := List.map_congr_left (l := t) (f := Char.toLower) (g := id)
      (fun c hc => toLower_fix (hchars c hc))
    rw [this, List.map_id]
  have htrim : jsTrim t = t := by
    unfold jsTrim
    rw [dropWhile_eq_self_of_all t (fun c hc => not_whitespace (hchars c hc))]
    rw [dropWhile_eq_self_of_all t.reverse
      (fun c hc => not_whitespace (hchars c (List.mem_reverse.mp hc)))]
    exact List.reverse_reverse t
  have hcollapse : collapseNonAlnum t = t :=
    (collapseAux_eq_self t hchars hchain).1
  have hstrip : stripEdgeUnderscores t = t := by
    unfold stripEdgeUnderscores
    rw [dropWhile_eq_self_of_head t (fun c hc => by simpa using hhead c hc)]
    rw [dropWhile_eq_self_of_head t.reverse (fun c hc => by
      rw [List.head?_reverse] at hc
      simpa using hlast c hc)]
    exact List.reverse_reverse t
  unfold normalizeToken
  rw [hlower, htrim, hcollapse, hstrip]

/-- `sliceDropEnd` shortens by exactly `k`. -/
theorem length_sliceDropEnd (k : ℕ) (l : Str) : (sliceDropEnd k l).length = l.length - k := by
  simp [sliceDropEnd]

/-! ## Claims -/

/-- Claim C1 (counterexample).  The claim asserts that a product with
`contains_grain = false` queried with the include unigram `grain` is hidden
(`show = false`).  On the sample product (which has `contains_grain = false`)
the engine instead *shows* the product: `hasToken`'s plain-prefix fallback
lets `grain` match the status token `grain_free`, so the `with`-direction
group counts as matched and the directional gate passes. -/
theorem C1_counterexample :
    sampleProduct.contains_grain = some false ∧
    (computeMatch sampleProduct (parseQuery ("grain".toList)).includeGroups
      (parseQuery ("grain".toList)).excludes).showProduct = true := by
  constructor
  · rfl
  · decide

/-- Claim C1 (amended).  For every product with `contains_grain = false`,
scoring it against the parsed query `"grain"` (whose single include group is
the expansion of the unigram `grain`) yields `show = true` with
`matchedGroups = 1`: the `with` direction constraint is satisfied, because
`hasToken` matches `grain` against the `grain_free`/`grainfree` status tokens
by plain prefix, so the unigram `grain` can never hide a grain-free
product. -/
theorem C1_grain_unigram_direction (p : Product) (h : p.contains_grain = some false) :
    (computeMatch p (parseQuery ("grain".toList)).includeGroups
        (parseQuery ("grain".toList)).excludes).showProduct = true ∧
    (computeMatch p (parseQuery ("grain".toList)).includeGroups
        (parseQuery ("grain".toList)).excludes).matchedGroups = 1 := by
  have hq : parseQuery ("grain".toList) =
      { includeGroups := [grainGroup], excludes := [],
        labelIncludes := ["grain".toList], labelExcludes := [] } := by decide
  rw [hq]
  have hmem : ("grain_free".toList) ∈ productTokenSet p := grain_free_mem_productTokenSet p h
  have hht : hasToken (productTokenSet p) ("grain".toList) = true := by
    unfold hasToken
    rw [Bool.or_eq_true]
    right
    rw [List.any_eq_true]
    exact ⟨"grain_free".toList, hmem, by decide⟩
  have hngt : ((grainGroup.map normalizeToken).filter (fun t => !t.isEmpty)) = grainGroup := by
    decide
  have hmatched :
      (evalGroup (productTokenSet p) (orderedIngredientTokens p) grainGroup).matched = true := by
    simp only [evalGroup]
    rw [hngt, List.any_eq_true]
    exact ⟨"grain".toList, by decide, hht⟩
  have hreq :
      (evalGroup (productTokenSet p) (orderedIngredientTokens p) grainGroup).requirement =
        some ("with".toList) := by
    simp only [evalGroup]
    rw [hngt]
    rw [if_pos (by decide)]
  simp [computeMatch, computeMatchCore, hmatched, hreq]

/-- Claim C1 (witness): the amended theorem applied to the sample product. -/
theorem C1_witness :
    (computeMatch sampleProduct (parseQuery ("grain".toList)).includeGroups
        (parseQuery ("grain".toList)).excludes).showProduct = true ∧
    (computeMatch sampleProduct (parseQuery ("grain".toList)).includeGroups
        (parseQuery ("grain".toList)).excludes).matchedGroups = 1 :=
  C1_grain_unigram_direction sampleProduct rfl

/-- Claim C2.  If some token of the exclude set satisfies `hasTokenExclude`
on the product's token set, `computeMatch` returns
`{match: 0, sortScore: 0, matchedGroups: 0, neededGroups: |includeGroups|,
show: false}`, before any include logic runs. -/
theorem C2_exclude_veto (p : Product) (includeGroups : List (List Str)) (excludes : List Str)
    (h : ∃ ex ∈ excludes, hasTokenExclude (productTokenSet p) ex = true) :
    computeMatch p includeGroups excludes =
      { matchPercent := 0, sortScore := 0, matchedGroups := 0,
        neededGroups := includeGroups.length, showProduct := false } := by
  have hany : (excludes.any (fun ex => hasTokenExclude (productTokenSet p) ex)) = true := by
    rw [List.any_eq_true]
    obtain ⟨ex, hm, hx⟩ := h
    exact ⟨ex, hm, by simp [hx]⟩
  unfold computeMatch computeMatchCore
  rw [hany]
  simp

/-- Claim C2 (witness): excluding `chicken` vetoes the sample product even
though its single include group (`peas`) would match. -/
theorem C2_witness :
    computeMatch sampleProduct [["peas".toList]] ["chicken".toList] =
      { matchPercent := 0, sortScore := 0, matchedGroups := 0, neededGroups := 1,
        showProduct := false } :=
  C2_exclude_veto sampleProduct [["peas".toList]] ["chicken".toList]
    ⟨"chicken".toList, by decide, by decide⟩

/-- Claim C3.  End to end: the sample product `{id: p1, name: Chicken Recipe,
brand: Acme, contains_grain: false, protein_sources: [chicken],
ingredients_list: chicken;peas;chicken_meal}` with the query
`"grain free chicken"` is shown with `match = 100` and
`matchedGroups = neededGroups = 2`. -/
theorem C3_end_to_end :
    (computeMatch sampleProduct (parseQuery ("grain free chicken".toList)).includeGroups
      (parseQuery ("grain free chicken".toList)).excludes).showProduct = true ∧
    (computeMatch sampleProduct (parseQuery ("grain free chicken".toList)).includeGroups
      (parseQuery ("grain free chicken".toList)).excludes).matchPercent = 100 ∧
    (computeMatch sampleProduct (parseQuery ("grain free chicken".toList)).includeGroups
      (parseQuery ("grain free chicken".toList)).excludes).matchedGroups = 2 ∧
    (computeMatch sampleProduct (parseQuery ("grain free chicken".toList)).includeGroups
      (parseQuery ("grain free chicken".toList)).excludes).neededGroups = 2 := by
  refine ⟨?_, ?_, ?_, ?_⟩ <;> decide

/-- Claim C4.  The five protein-purity round trips of the specification. -/
theorem C4_protein_purity_round_trip :
    evaluateProteinPurity ["chicken".toList] = { percent := 100, tier := "pure".toList } ∧
    evaluateProteinPurity ["chicken_meal".toList] = { percent := 93, tier := "meal".toList } ∧
    evaluateProteinPurity ["chicken_fat".toList] = { percent := 85, tier := "fat".toList } ∧
    evaluateProteinPurity ["chicken_and_rice".toList] =
      { percent := 75, tier := "mixed".toList } ∧
    evaluateProteinPurity ([] : List Str) = { percent := 0, tier := "none".toList } := by
  refine ⟨?_, ?_, ?_, ?_, ?_⟩ <;> decide

/-- Claim C5 (counterexample).  The claim asserts that for a token ending in
`oes` the variant set contains the token minus its trailing `oes`.  For
`potatoes` (which does end in `oes`) the set does not contain `potat`: the
`oes` rule of the source uses `slice(0, -2)` and so drops only `es`. -/
theorem C5_counterexample :
    ("oes".toList).isSuffixOf ("potatoes".toList) = true ∧
    ("potat".toList) ∉ simplePluralVariants ("potatoes".toList) ∧
    (simplePluralVariants ("potatoes".toList)).length = 3 := by
  refine ⟨?_, ?_, ?_⟩ <;> decide

/-- Claim C5 (amended).  For every normalized token ending in `oes`, the
variant set is exactly `[t, t minus "es", t minus "s"]` (up to 3 variants):
the `ies` rule cannot fire, the `oes` rule drops only the final `es` — thus
coinciding with the `es` rule — and the drop-`oes` variant is never
produced. -/
theorem C5_oes_rule (t : Str) (hn : normalizeToken t = t)
    (hs : ("oes".toList).isSuffixOf t = true) :
    simplePluralVariants t = [t, sliceDropEnd 2 t, sliceDropEnd 1 t] := by
  obtain ⟨pre, hpre⟩ := List.isSuffixOf_iff_suffix.mp hs
  have hlen : t.length = pre.length + 3 := by
    rw [← hpre]
    simp
  have hies : ("ies".toList).isSuffixOf t = false := by
    cases hies : ("ies".toList).isSuffixOf t with
    | false => rfl
    | true =>
      obtain ⟨pre2, hpre2⟩ := List.isSuffixOf_iff_suffix.mp hies
      have hl2 : pre2.length = pre.length := by
        have := congrArg List.length hpre2
        simp only [List.length_append,
          show ("ies".toList).length = 3 from by decide] at this
        omega
      have heq : "ies".toList = "oes".toList :=
        List.append_inj_right (hpre2.trans hpre.symm) hl2
      exact absurd heq (by decide)
  have hes : ("es".toList).isSuffixOf t = true := by
    rw [List.isSuffixOf_iff_suffix]
    exact ⟨pre ++ ['o'], by rw [← hpre]; simp⟩
  have hss : ("s".toList).isSuffixOf t = true := by
    rw [List.isSuffixOf_iff_suffix]
    exact ⟨pre ++ ['o', 'e'], by rw [← hpre]; simp⟩
  have hne2 : ¬ (sliceDropEnd 2 t = t) := by
    intro he
    have := congrArg List.length he
    rw [length_sliceDropEnd, hlen] at this
    omega
  have hne1a : ¬ (sliceDropEnd 1 t = t) := by
    intro he
    have := congrArg List.length he
    rw [length_sliceDropEnd, hlen] at this
    omega
  have hne1b : ¬ (sliceDropEnd 1 t = sliceDropEnd 2 t) := by
    intro he
    have := congrArg List.length he
    rw [length_sliceDropEnd, length_sliceDropEnd, hlen] at this
    omega
  unfold simplePluralVariants
  simp only [hn, hies, hs, hes, hss, Bool.false_eq_true, if_false, if_true]
  have h1 : setAdd [t] (sliceDropEnd 2 t) = [t, sliceDropEnd 2 t] := by
    unfold setAdd
    rw [if_neg (by simp [hne2])]
    rfl
  rw [h1]
  have h2 : setAdd [t, sliceDropEnd 2 t] (sliceDropEnd 2 t) = [t, sliceDropEnd 2 t] := by
    unfold setAdd
    rw [if_pos (by simp)]
  rw [h2]
  have h3 : setAdd [t, sliceDropEnd 2 t] (sliceDropEnd 1 t) =
      [t, sliceDropEnd 2 t, sliceDropEnd 1 t] := by
    unfold setAdd
    rw [if_neg (by simp [hne1a, hne1b])]
    rfl
  rw [h3]

/-- Claim C5 (witness): the amended theorem applied to `potatoes`. -/
theorem C5_witness :
    simplePluralVariants ("potatoes".toList) =
      ["potatoes".toList, sliceDropEnd 2 ("potatoes".toList),
       sliceDropEnd 1 ("potatoes".toList)] :=
  C5_oes_rule ("potatoes".toList) (by decide) (by decide)

/-- Claim C6 (counterexample).  The claim asserts that for *every* product
with `contains_grain = false` the exclude token `grain` fails
`hasTokenExclude`, so excluding `grain` never hides such a product.  The
product named "Grain Free Chicken" has `contains_grain = false`, yet its
name contributes the bare token `grain` to the token set, the special case
matches it exactly, and the query `-grain` hides the product. -/
theorem C6_counterexample :
    grainNamedProduct.contains_grain = some false ∧
    hasTokenExclude (productTokenSet grainNamedProduct) ("grain".toList) = true ∧
    (computeMatch grainNamedProduct (parseQuery ("-grain".toList)).includeGroups
      (parseQuery ("-grain".toList)).excludes).showProduct = false := by
  refine ⟨rfl, ?_, ?_⟩ <;> decide

/-- Claim C6 (amended).  When the exclude token is `grain` or `grains`,
`hasTokenExclude` matches only exact membership of one of
`{contains_grain, grain, grains, with_grains}`.  Hence for every product
whose token set contains none of those four tokens — in particular the
grain-free status tokens added by `contains_grain = false` never qualify —
excluding `grain` or `grains` does not fire; a grain-free product is hidden
only when some other field (such as a name containing the word "grain")
contributes one of the four tokens exactly. -/
theorem C6_exclude_grain_asymmetry (p : Product)
    (hclean : ∀ t ∈ (["contains_grain".toList, "grain".toList, "grains".toList,
      "with_grains".toList] : List Str), t ∉ productTokenSet p) :
    hasTokenExclude (productTokenSet p) ("grain".toList) = false ∧
    hasTokenExclude (productTokenSet p) ("grains".toList) = false :=
  ⟨hasTokenExclude_grain_special p hclean ("grain".toList) (Or.inl (by decide)),
   hasTokenExclude_grain_special p hclean ("grains".toList) (Or.inr (by decide))⟩

/-- Claim C6 (witness): the amended theorem applied to the sample product,
whose token set contains none of the four grain-present tokens. -/
theorem C6_witness :
    hasTokenExclude (productTokenSet sampleProduct) ("grain".toList) = false ∧
    hasTokenExclude (productTokenSet sampleProduct) ("grains".toList) = false :=
  C6_exclude_grain_asymmetry sampleProduct (by decide)

/-- Claim C7.  `normalizeToken` is idempotent, and (being a total Lean
function) never fails; its output is canonical: only lowercase ASCII letters,
digits and single (never doubled) underscores, with no leading or trailing
underscore. -/
theorem C7_normalize_idempotent (s : Str) :
    normalizeToken (normalizeToken s) = normalizeToken s ∧ Canonical (normalizeToken s) :=
  ⟨normalizeToken_of_canonical _ (canonical_normalizeToken s), canonical_normalizeToken s⟩

/-- Claim C8.  A query that is empty or all whitespace parses to the identity
result: no include groups, no excludes, no labels. -/
theorem C8_blank_query (q : Str) (h : ∀ c ∈ q, c.isWhitespace = true) :
    parseQuery q = emptyParseResult := by
  have h1 : q.dropWhile Char.isWhitespace = [] := List.dropWhile_eq_nil_iff.mpr h
  unfold parseQuery jsTrim
  rw [h1]
  simp [splitRuns, splitRunsGo]

/-- Claim C8 (witness): the theorem applied to a three-space query. -/
theorem C8_witness : parseQuery ("   ".toList) = emptyParseResult :=
  C8_blank_query ("   ".toList) (by decide)

/-- Claim C9.  For a fixed parsed query whose excludes pass the exclusion
check on both token sets, enlarging the product token set can only increase
the `matchedGroups` count of the result. -/
theorem C9_matchedGroups_monotone (ts ts2 freq ord : List Str)
    (groups : List (List Str)) (excludes : List Str)
    (hsub : ∀ t ∈ ts, t ∈ ts2)
    (hex1 : ∀ ex ∈ excludes, hasTokenExclude ts ex = false)
    (hex2 : ∀ ex ∈ excludes, hasTokenExclude ts2 ex = false) :
    (computeMatchCore ts freq ord groups excludes).matchedGroups ≤
      (computeMatchCore ts2 freq ord groups excludes).matchedGroups := by
  rw [matchedGroups_eq (excl_any_false hex1), matchedGroups_eq (excl_any_false hex2)]
  exact matchedCount_mono hsub groups

/-- Claim C9 (witness): the theorem applied to a one-token set inside a
two-token set for the single include group `chicken`. -/
theorem C9_witness :
    (computeMatchCore ["chicken".toList] [] [] [["chicken".toList]] []).matchedGroups ≤
      (computeMatchCore ["chicken".toList, "beef".toList] [] []
        [["chicken".toList]] []).matchedGroups :=
  C9_matchedGroups_monotone ["chicken".toList] ["chicken".toList, "beef".toList] [] []
    [["chicken".toList]] [] (by decide) (by decide) (by decide)

/-- Claim C10.  With empty include groups and no firing exclude,
`computeMatch` returns `{match: 0, sortScore: 0, matchedGroups: 0,
neededGroups: 0, show: true}`: the product stays visible with a zero
score. -/
theorem C10_exclude_only_visible (p : Product) (excludes : List Str)
    (h : ∀ ex ∈ excludes, hasTokenExclude (productTokenSet p) ex = false) :
    computeMatch p [] excludes =
      { matchPercent := 0, sortScore := 0, matchedGroups := 0, neededGroups := 0,
        showProduct := true } := by
  unfold computeMatch computeMatchCore
  rw [excl_any_false h]
  simp

/-- Claim C10 (witness): the theorem applied to the sample product with the
non-firing exclude `beef`. -/
theorem C10_witness :
    computeMatch sampleProduct [] ["beef".toList] =
      { matchPercent := 0, sortScore := 0, matchedGroups := 0, neededGroups := 0,
        showProduct := true } :=
  C10_exclude_only_visible sampleProduct ["beef".toList] (by decide)
